import Mathlib

/-!
Formal model of the faceless-video-automation pipeline (TypeScript sources:
`createShort` / `generateTTSAudio` / `getBackgroundMusic` / `splitScriptIntoSentences`
in the main video module, and `concatenateVideos` / `createVideo` in `editor.ts`).

Text is modelled as `List Char`; durations as `ℚ`; external effects (ffmpeg,
network, filesystem) as boolean oracles.  Each definition is a shallow embedding
of the corresponding source function.
-/

namespace FVA

/-- Sentence terminator characters used by both the TTS chunker regex
`/[^.!?]+[.!?]+/g` and `splitScriptIntoSentences`'s `/[.!?]+/` split. -/
def isTerm (c : Char) : Bool := c = '.' || c = '!' || c = '?'

/-- JavaScript `String.prototype.trim` on the char-list text model. -/
def trimChars (cs : List Char) : List Char :=
  ((cs.dropWhile Char.isWhitespace).reverse.dropWhile Char.isWhitespace).reverse

/-! ### Sentence matching: `text.match(/[^.!?]+[.!?]+/g)`

A one-pass scanner equivalent to the global regex match: it skips characters
that cannot start a match (leading terminators), then accumulates a maximal
run of non-terminators followed by a maximal run of terminators, emitting that
as one sentence.  Trailing text with no terminator is not matched.
`acc` holds the current partial match in reverse; `inTerms` records whether the
terminator run of the current match has started. -/
def scanSentences : List Char → List Char → Bool → List (List Char)
  | [], acc, inTerms => if inTerms then [acc.reverse] else []
  | c :: cs, acc, inTerms =>
    if isTerm c then
      if acc.isEmpty then scanSentences cs [] false
      else scanSentences cs (c :: acc) true
    else
      if inTerms then acc.reverse :: scanSentences cs [c] false
      else scanSentences cs (c :: acc) false

/-- All matches of `/[^.!?]+[.!?]+/g` on `text`. -/
def sentencesOf (text : List Char) : List (List Char) :=
  scanSentences text [] false

/-- `text.match(/[^.!?]+[.!?]+/g) || [text]`: the whole-text fallback applies
exactly when no sentence matches at all. -/
def jsSentences (text : List Char) : List (List Char) :=
  match sentencesOf text with
  | [] => [text]
  | ss => ss

/-- The greedy sentence-accumulation loop of `generateTTSAudio`: grow
`currentChunk` while the next sentence still fits in 200 characters, otherwise
push the trimmed chunk and start a new one from that sentence; finally push the
trimmed remainder if non-empty. -/
def chunkLoop : List (List Char) → List Char → List (List Char)
  | [], cur => if cur.isEmpty then [] else [trimChars cur]
  | s :: ss, cur =>
    if (cur ++ s).length ≤ 200 then chunkLoop ss (cur ++ s)
    else (if cur.isEmpty then [] else [trimChars cur]) ++ chunkLoop ss s

/-- The chunk list computed by `generateTTSAudio`: one chunk when the text fits
in the 200-character TTS limit, otherwise the greedy sentence-bounded split. -/
def ttsChunks (text : List Char) : List (List Char) :=
  if text.length ≤ 200 then [text] else chunkLoop (jsSentences text) []

/-- The final narration artifact: either the single chunk's audio file moved to
the output path, or all chunk files concatenated (ffmpeg concat demuxer) in
original chunk order. -/
inductive NarrationOutput
  | direct (chunk : List Char)
  | stitched (chunks : List (List Char))
  deriving DecidableEq, Repr

/-- Assembly step of `generateTTSAudio` after per-chunk synthesis: if
`chunkPaths.length === 1` the chunk file is moved to the output, otherwise the
chunk files are concatenated in order. -/
def assembleNarration (chunks : List (List Char)) : NarrationOutput :=
  match chunks with
  | [c] => .direct c
  | cs => .stitched cs

/-- TTS fallback duration estimate:
`Math.max(10, Math.min(45, text.length / 450 * 60))`. -/
def estimatedDuration (textLen : ℕ) : ℚ :=
  max 10 (min 45 ((textLen : ℚ) / 450 * 60))

/-- Result of `generateTTSAudio`: real synthesis, or the silent placeholder
track produced when the TTS service is unreachable. -/
inductive TTSOutcome
  | synthesized (chunks : List (List Char))
  | fallbackSilent (duration : ℚ)
  deriving DecidableEq, Repr

/-- `generateTTSAudio` with the reachability of the external TTS service as an
oracle: the inner try/catch converts any synthesis failure into the silent
placeholder path instead of propagating it. -/
def generateTTSAudio (synthOk : Bool) (text : List Char) : Except String TTSOutcome :=
  if synthOk then .ok (.synthesized (ttsChunks text))
  else .ok (.fallbackSilent (estimatedDuration text.length))

/-! ### splitScriptIntoSentences (overlay sentence list) -/

/-- Split a char list at every terminator character.  `script.split(/[.!?]+/)`
collapses terminator runs, which only differs from the per-character split by
extra empty segments; those are removed by the filter below either way. -/
def splitOnTermChar : List Char → List (List Char)
  | [] => [[]]
  | c :: cs =>
    if isTerm c then [] :: splitOnTermChar cs
    else
      match splitOnTermChar cs with
      | [] => [[c]]
      | s :: ss => (c :: s) :: ss

/-- `splitScriptIntoSentences`: split on terminators, trim each piece, drop
empty pieces. -/
def splitScriptIntoSentences (script : List Char) : List (List Char) :=
  ((splitOnTermChar script).map trimChars).filter (fun s => !s.isEmpty)

/-! ### Background music acquisition -/

/-- Hardcoded Pixabay royalty-free music URLs (fallback). -/
def DEFAULT_MUSIC_URLS : List String :=
  [ "https://cdn.pixabay.com/download/audio/2022/03/10/audio_d1718ab41b.mp3"
  , "https://cdn.pixabay.com/download/audio/2022/05/27/audio_1808fbf07a.mp3"
  , "https://cdn.pixabay.com/download/audio/2021/08/04/audio_0625c1539c.mp3" ]

/-- Where the background-music track came from.  Filenames are char lists. -/
inductive MusicSource
  | userFile (name : List Char)
  | downloaded (url : String)
  | silentPlaceholder (seconds : ℚ)
  deriving DecidableEq, Repr

/-- The `files.find(f => f.toLowerCase().endsWith('.mp3'))` predicate, on the
char-list filename model. -/
def isMp3Name (f : List Char) : Bool :=
  List.isSuffixOf ['.', 'm', 'p', '3'] (f.map Char.toLower)

/-- The catch branch of `getBackgroundMusic`: download the first default URL;
if the download fails, synthesize 60 seconds of silent audio. -/
def downloadDefaultMusic (downloadOk : Bool) : MusicSource :=
  if downloadOk then .downloaded DEFAULT_MUSIC_URLS.headI
  else .silentPlaceholder 60

/-- `getBackgroundMusic` with filesystem/network oracles: prefer the first
`.mp3` in the user `music/` folder, else download the first default track, else
fall back to a 60-second silent placeholder. -/
def getBackgroundMusic (musicDirExists : Bool) (files : List (List Char))
    (downloadOk : Bool) : MusicSource :=
  if musicDirExists then
    match files.find? isMp3Name with
    | some f => .userFile f
    | none => downloadDefaultMusic downloadOk
  else downloadDefaultMusic downloadOk

/-! ### Input validation and the createShort orchestrator -/

/-- The input-validation block at the top of `createShort`: empty/whitespace
script, empty asset list, or any asset path missing on disk throws; the loop
over asset paths throws at the first missing one. -/
def validateInputs (script : List Char) (assetPaths : List String)
    (pathExists : String → Bool) : Except String Unit :=
  if (trimChars script).isEmpty then .error "Script cannot be empty"
  else if assetPaths.isEmpty then .error "At least one asset path is required"
  else
    match assetPaths.find? (fun p => !pathExists p) with
    | some p => .error ("Asset file not found: " ++ p)
    | none => .ok ()

/-- The pipeline stages of `createShort` that run inside the temp workspace,
in source order (Steps 1-7). -/
inductive Stage
  | tts | probe | music | assets | concat | overlay | mix | sideFiles
  deriving DecidableEq, Repr

/-- Observable events of one `createShort` run. -/
inductive Event
  | ranStage (s : Stage)
  | createdTemp
  | removedTemp
  deriving DecidableEq, Repr

/-- Steps 1-7 of `createShort` in execution order. -/
def shortStages : List Stage :=
  [.tts, .probe, .music, .assets, .concat, .overlay, .mix, .sideFiles]

/-- Run stages in order; a failing stage is still attempted (its event is
recorded) and aborts the rest, mirroring a thrown error inside the `try`. -/
def runStages (ok : Stage → Bool) : List Stage → List Event × Except String Unit
  | [] => ([], .ok ())
  | s :: rest =>
    if ok s then
      let r := runStages ok rest
      (Event.ranStage s :: r.1, r.2)
    else ([Event.ranStage s], .error "stage failed")

/-- Whether the temp workspace exists after the events, given whether it
exists now. -/
def tempExistsFrom (b : Bool) : List Event → Bool
  | [] => b
  | Event.createdTemp :: rest => tempExistsFrom true rest
  | Event.removedTemp :: rest => tempExistsFrom false rest
  | Event.ranStage _ :: rest => tempExistsFrom b rest

/-- Whether the temp workspace exists after the given event trace. -/
def tempExistsAfter (t : List Event) : Bool := tempExistsFrom false t

/-- Inputs of one `createShort` call relevant to control flow. -/
structure ShortInput where
  script : List Char
  assetPaths : List String

/-- External-world oracle for one run: which paths exist and which stages'
external work succeeds. -/
structure Oracle where
  pathExists : String → Bool
  stageOk : Stage → Bool

/-- Trace and outcome of one run. -/
structure ShortRun where
  outcome : Except String Unit
  trace : List Event

/-- Control-flow model of `createShort`: validate (before the temp workspace is
created), create the temp workspace, run Steps 1-7; on success Step 8 removes
the workspace; the catch block removes the workspace if it exists before
re-raising. -/
def createShortRun (inp : ShortInput) (o : Oracle) : ShortRun :=
  match validateInputs inp.script inp.assetPaths o.pathExists with
  | .error e => { outcome := .error e, trace := [] }
  | .ok () =>
    let r := runStages o.stageOk shortStages
    match r.2 with
    | .ok () =>
      { outcome := .ok ()
        trace := Event.createdTemp :: r.1 ++ [Event.removedTemp] }
    | .error e =>
      { outcome := .error e
        trace :=
          if tempExistsAfter (Event.createdTemp :: r.1) then
            Event.createdTemp :: r.1 ++ [Event.removedTemp]
          else Event.createdTemp :: r.1 }

/-! ### Asset normalization stage: createVideo Step 1 vs createShort Step 3

Each asset is a pair of its path and whether its ffmpeg normalization
succeeds. -/

/-- `createVideo` Step 1 (editor.ts): each `scaleAndCropVideo` call sits in a
try/catch that logs a warning and skips the asset; the stage errors only when
no asset was processed. -/
def createVideoStep1 (assets : List (String × Bool)) : Except String (List String) :=
  let processedVideos := (assets.filter (fun a => a.2)).map Prod.fst
  if processedVideos.isEmpty then .error "No videos were successfully processed"
  else .ok processedVideos

/-- `createShort` Step 3: the per-asset ffmpeg promise is awaited with no
per-asset try/catch, so the first failing asset rejects and the error
propagates out of the stage (the model's error carries the failing path). -/
def createShortStep3 : List (String × Bool) → Except String (List String)
  | [] => .ok []
  | a :: rest =>
    if a.2 then
      match createShortStep3 rest with
      | .ok l => .ok (a.1 :: l)
      | .error e => .error e
    else .error a.1

/-! ### Timeline composition: createShort Step 4 and editor.ts concatenateVideos -/

/-- A concatenation plan sent to the transcoding engine. -/
inductive ConcatPlan
  | copied (src : String)
  | concatList (entries : List String) (trimTo : Option ℚ)
  deriving DecidableEq, Repr

/-- `concatenateVideos` (editor.ts): empty input is an error, a single video is
copied to the output, otherwise a concat list of the paths in order is run with
an optional `-t` trim. -/
def concatenateVideos : List String → Option ℚ → Except String ConcatPlan
  | [], _ => .error "No videos to concatenate"
  | [v], _ => .ok (.copied v)
  | vs, t => .ok (.concatList vs t)

/-- Clips are path-duration pairs (the duration as probed by ffprobe). -/
abbrev Clip := String × ℚ

/-- `createShort` Step 4: sum the probed durations once, compute
`loops = Math.ceil(ttsDuration / totalVideoDuration)`, write a concat list that
repeats the full processed-clip sequence `loops` times, and run it with
`-c copy -t ttsDuration`.  There is no single-clip shortcut here. -/
def createShortStep4Plan (clips : List Clip) (ttsDuration : ℚ) : ConcatPlan :=
  let totalVideoDuration := (clips.map Prod.snd).sum
  let loops := (Int.ceil (ttsDuration / totalVideoDuration)).toNat
  .concatList ((List.replicate loops (clips.map Prod.fst)).flatten) (some ttsDuration)

/-- The timeline entries (clip references, with durations) of Step 4. -/
def composeTimeline (clips : List Clip) (ttsDuration : ℚ) : List Clip :=
  let totalVideoDuration := (clips.map Prod.snd).sum
  let loops := (Int.ceil (ttsDuration / totalVideoDuration)).toNat
  (List.replicate loops clips).flatten

/-- Duration of the `-t t`-trimmed concatenation of the given entries, per the
engine model: the output lasts `t` seconds unless the input is shorter. -/
def trimmedConcatDuration (entries : List Clip) (t : ℚ) : ℚ :=
  min ((entries.map Prod.snd).sum) t

/-! ### Overlay scheduling: createShort Step 5 caption cue windows -/

/-- `createShort` Step 5: the `enable=between(t,start,end)` windows, in filter
order — intro at 0 of width `min(2.5, slot)`, one slot per sentence, outro of
width `min(2.5, slot)` ending at the narration duration, where
`slot = ttsDuration / (sentences.length + 2)`. -/
def captionWindows (ttsDuration : ℚ) (S : ℕ) : List (ℚ × ℚ) :=
  let slot := ttsDuration / (S + 2)
  ((0, min (5/2) slot) ::
    (List.range S).map (fun (i : ℕ) => (slot * ((i : ℚ) + 1), slot * ((i : ℚ) + 2))))
    ++ [(ttsDuration - min (5/2) slot, ttsDuration)]

/-- Windows `ws` tile the interval from `a` to `b`: consecutive, gap-free,
each of nonnegative width. -/
def tilesB : ℚ → List (ℚ × ℚ) → ℚ → Bool
  | a, [], b => a == b
  | a, w :: ws, b => a == w.1 && decide (w.1 ≤ w.2) && tilesB w.2 ws b

/-- Windows `ws` lie in order (possibly with gaps) between `a` and `b`. -/
def orderedB : ℚ → List (ℚ × ℚ) → ℚ → Bool
  | a, [], b => decide (a ≤ b)
  | a, w :: ws, b => decide (a ≤ w.1) && decide (w.1 ≤ w.2) && orderedB w.2 ws b

/-! ### Helper lemmas -/

lemma find?_first {α : Type} (p : α → Bool) (pre : List α) (f : α) (post : List α)
    (hf : p f = true) (hpre : ∀ g ∈ pre, p g = false) :
    (pre ++ f :: post).find? p = some f := by
  induction pre with
  | nil => simp [List.find?_cons_of_pos, hf]
  | cons g gs ih =>
    have hg : ¬ p g = true := by simp [hpre g (by simp)]
    rw [List.cons_append, List.find?_cons_of_neg _ hg]
    exact ih (fun x hx => hpre x (by simp [hx]))

/-! ### C5: TTS network-failure fallback -/

/-- C5: when the external speech-synthesis call fails, `generateTTSAudio`
returns (does not throw) a silent placeholder whose duration is
`text.length / 450 * 60` seconds clamped to `[10, 45]`. -/
theorem generateTTSAudio_fallback (text : List Char) :
    generateTTSAudio false text =
      .ok (.fallbackSilent (max 10 (min 45 ((text.length : ℚ) / 450 * 60))))
    ∧ 10 ≤ estimatedDuration text.length ∧ estimatedDuration text.length ≤ 45 :=
  ⟨rfl, le_max_left _ _, max_le (by norm_num) (min_le_left _ _)⟩

/-! ### C8: background-music acquisition priority -/

/-- C8: music acquisition priority order — the first `.mp3` of the existing
music folder; else the first URL of the fixed default list; else a 60-second
silent placeholder; the function is total, so a music network failure is never
fatal. -/
theorem getBackgroundMusic_priority (musicDirExists : Bool)
    (files : List (List Char)) (downloadOk : Bool) :
    (∀ pre f post, musicDirExists = true → files = pre ++ f :: post →
        isMp3Name f = true → (∀ g ∈ pre, isMp3Name g = false) →
        getBackgroundMusic musicDirExists files downloadOk = .userFile f)
    ∧ ((musicDirExists = false ∨ ∀ f ∈ files, isMp3Name f = false) → downloadOk = true →
        getBackgroundMusic musicDirExists files downloadOk =
          .downloaded "https://cdn.pixabay.com/download/audio/2022/03/10/audio_d1718ab41b.mp3")
    ∧ ((musicDirExists = false ∨ ∀ f ∈ files, isMp3Name f = false) → downloadOk = false →
        getBackgroundMusic musicDirExists files downloadOk = .silentPlaceholder 60)
    ∧ DEFAULT_MUSIC_URLS.headI =
        "https://cdn.pixabay.com/download/audio/2022/03/10/audio_d1718ab41b.mp3" := by
  refine ⟨?_, ?_, ?_, rfl⟩
  · intro pre f post hdir hfiles hf hpre
    subst hfiles
    simp [getBackgroundMusic, hdir, find?_first isMp3Name pre f post hf hpre]
  · intro h hok
    rcases h with h | h
    · simp [getBackgroundMusic, h, downloadDefaultMusic, hok, DEFAULT_MUSIC_URLS]
    · have hnone : files.find? isMp3Name = none :=
        List.find?_eq_none.mpr (fun x hx => by simp [h x hx])
      cases musicDirExists <;>
        simp [getBackgroundMusic, hnone, downloadDefaultMusic, hok, DEFAULT_MUSIC_URLS]
  · intro h hok
    rcases h with h | h
    · simp [getBackgroundMusic, h, downloadDefaultMusic, hok]
    · have hnone : files.find? isMp3Name = none :=
        List.find?_eq_none.mpr (fun x hx => by simp [h x hx])
      cases musicDirExists <;>
        simp [getBackgroundMusic, hnone, downloadDefaultMusic, hok]

/-- C8 witness: a folder with a non-mp3 then an mp3 file yields the mp3. -/
theorem getBackgroundMusic_priority_witness :
    getBackgroundMusic true [['a'], ['b', '.', 'm', 'p', '3']] true =
      .userFile ['b', '.', 'm', 'p', '3'] :=
  (getBackgroundMusic_priority true [['a'], ['b', '.', 'm', 'p', '3']] true).1
    [['a']] ['b', '.', 'm', 'p', '3'] [] rfl rfl (by decide) (by decide)

/-! ### C6: createShort input validation -/

lemma validateInputs_error_iff (s : List Char) (ps : List String) (ex : String → Bool) :
    (∃ e, validateInputs s ps ex = .error e) ↔
      ((trimChars s).isEmpty = true ∨ ps = [] ∨ ∃ p ∈ ps, ex p = false) := by
  unfold validateInputs
  by_cases h1 : (trimChars s).isEmpty = true
  · simp [h1]
  · by_cases h2 : ps.isEmpty = true
    · simp [h1, h2, List.isEmpty_iff.mp h2]
    · cases hf : ps.find? (fun p => !ex p) with
      | some p =>
        have hp := List.mem_of_find?_eq_some hf
        have hpx : ex p = false := by simpa using List.find?_some hf
        simp only [h1, h2, hf, if_false, Bool.false_eq_true]
        simp [h1, List.isEmpty_iff] at *
        exact Or.inr ⟨p, hp, hpx⟩
      | none =>
        have hnone := List.find?_eq_none.mp hf
        simp only [h1, h2, hf, if_false, Bool.false_eq_true]
        simp [h1, List.isEmpty_iff, h2]
        refine ⟨fun hps => h2 (by simp [hps]), fun p hp => ?_⟩
        have := hnone p hp
        simpa using this

/-- C6: `createShort` raises an error immediately — with no pipeline stage run
and no temp workspace created — if and only if the script trims to empty, the
asset list is empty, or some asset path does not exist (the missing asset is
fatal, never skipped). -/
theorem createShort_validation (inp : ShortInput) (o : Oracle) :
    ((∃ e, (createShortRun inp o).outcome = .error e) ∧ (createShortRun inp o).trace = [])
    ↔ ((trimChars inp.script).isEmpty = true ∨ inp.assetPaths = [] ∨
        ∃ p ∈ inp.assetPaths, o.pathExists p = false) := by
  rw [← validateInputs_error_iff inp.script inp.assetPaths o.pathExists]
  unfold createShortRun
  cases hv : validateInputs inp.script inp.assetPaths o.pathExists with
  | error e => simp [hv]
  | ok u =>
    cases u
    simp only [hv]
    cases hr : (runStages o.stageOk shortStages).2 with
    | ok u2 => cases u2; simp
    | error e2 =>
      constructor
      · rintro ⟨-, htr⟩
        exfalso
        by_cases hc : tempExistsAfter
            (Event.createdTemp :: (runStages o.stageOk shortStages).1) = true
        · rw [if_pos hc] at htr
          simp at htr
        · rw [if_neg hc] at htr
          simp at htr
      · rintro ⟨e, he⟩
        exact absurd he (by simp)

/-- C6 witness: a whitespace-only script is rejected before any stage. -/
theorem createShort_validation_witness :
    (∃ e, (createShortRun ⟨[' '], ["a.mp4"]⟩
        ⟨fun _ => true, fun _ => true⟩).outcome = .error e)
    ∧ (createShortRun ⟨[' '], ["a.mp4"]⟩ ⟨fun _ => true, fun _ => true⟩).trace = [] :=
  (createShort_validation ⟨[' '], ["a.mp4"]⟩ ⟨fun _ => true, fun _ => true⟩).mpr
    (Or.inl (by decide))

/-! ### C7: workspace cleanup on every exit path -/

lemma runStages_events (ok : Stage → Bool) :
    ∀ stages, ∀ e ∈ (runStages ok stages).1, ∃ s, e = Event.ranStage s := by
  intro stages
  induction stages with
  | nil => simp [runStages]
  | cons s rest ih =>
    intro e he
    by_cases h : ok s = true
    · simp only [runStages, h, if_true, List.mem_cons] at he
      rcases he with rfl | he
      · exact ⟨s, rfl⟩
      · exact ih e he
    · simp only [runStages, h, if_false, List.mem_singleton, Bool.false_eq_true] at he
      subst he
      exact ⟨s, rfl⟩

lemma tempExistsFrom_append (b : Bool) (xs ys : List Event) :
    tempExistsFrom b (xs ++ ys) = tempExistsFrom (tempExistsFrom b xs) ys := by
  induction xs generalizing b with
  | nil => rfl
  | cons e rest ih => cases e <;> simp [tempExistsFrom, ih]

lemma tempExistsFrom_stages (b : Bool) (evs : List Event)
    (h : ∀ e ∈ evs, ∃ s, e = Event.ranStage s) : tempExistsFrom b evs = b := by
  induction evs generalizing b with
  | nil => rfl
  | cons e rest ih =>
    obtain ⟨s, rfl⟩ := h e (by simp)
    simpa [tempExistsFrom] using ih b (fun x hx => h x (by simp [hx]))

lemma tempExistsAfter_run (evs : List Event)
    (h : ∀ e ∈ evs, ∃ s, e = Event.ranStage s) :
    tempExistsAfter (Event.createdTemp :: evs ++ [Event.removedTemp]) = false ∧
    tempExistsAfter (Event.createdTemp :: evs) = true := by
  constructor
  · show tempExistsFrom false _ = false
    rw [show Event.createdTemp :: evs ++ [Event.removedTemp]
        = (Event.createdTemp :: evs) ++ [Event.removedTemp] from rfl]
    rw [tempExistsFrom_append]
    rfl
  · show tempExistsFrom false (Event.createdTemp :: evs) = true
    simpa [tempExistsFrom] using tempExistsFrom_stages true evs h

/-- C7: whenever a `createShort` run created its temp workspace, the workspace
no longer exists once the call returns — on success and on error alike — and
its removal is the last filesystem event of the run (after the artifacts are
written on success, before the error is re-raised on failure). -/
theorem createShort_cleanup (inp : ShortInput) (o : Oracle)
    (h : Event.createdTemp ∈ (createShortRun inp o).trace) :
    tempExistsAfter (createShortRun inp o).trace = false
    ∧ (createShortRun inp o).trace.getLast? = some Event.removedTemp := by
  unfold createShortRun at *
  cases hv : validateInputs inp.script inp.assetPaths o.pathExists with
  | error e => rw [hv] at h; simp at h
  | ok u =>
    cases u
    have hev := runStages_events o.stageOk shortStages
    have hrun := tempExistsAfter_run (runStages o.stageOk shortStages).1 hev
    simp only [hv]
    cases hr : (runStages o.stageOk shortStages).2 with
    | ok u2 =>
      cases u2
      refine ⟨hrun.1, ?_⟩
      rw [show Event.createdTemp :: (runStages o.stageOk shortStages).1 ++ [Event.removedTemp]
          = (Event.createdTemp :: (runStages o.stageOk shortStages).1) ++ [Event.removedTemp]
          from rfl]
      exact List.getLast?_concat _
    | error e2 =>
      simp only [hrun.2, if_true]
      refine ⟨hrun.1, ?_⟩
      rw [show Event.createdTemp :: (runStages o.stageOk shortStages).1 ++ [Event.removedTemp]
          = (Event.createdTemp :: (runStages o.stageOk shortStages).1) ++ [Event.removedTemp]
          from rfl]
      exact List.getLast?_concat _

/-- C7 witness: a fully successful run leaves no temp workspace behind. -/
theorem createShort_cleanup_witness :
    tempExistsAfter (createShortRun ⟨['h', 'i', '.'], ["a.mp4"]⟩
      ⟨fun _ => true, fun _ => true⟩).trace = false :=
  (createShort_cleanup ⟨['h', 'i', '.'], ["a.mp4"]⟩
    ⟨fun _ => true, fun _ => true⟩ (by decide)).1

/-! ### C1: asset-normalization failure policy -/

lemma createShortStep3_ok_iff (assets : List (String × Bool)) :
    (∃ l, createShortStep3 assets = .ok l) ↔ ∀ a ∈ assets, a.2 = true := by
  induction assets with
  | nil => simp [createShortStep3]
  | cons a rest ih =>
    by_cases ha : a.2 = true
    · cases hr : createShortStep3 rest with
      | ok l =>
        have hrest : ∀ x ∈ rest, x.2 = true := ih.mp ⟨l, hr⟩
        simp only [createShortStep3, ha, if_true, hr]
        refine iff_of_true ⟨a.1 :: l, rfl⟩ ?_
        intro x hx
        rcases List.mem_cons.mp hx with rfl | hx
        · exact ha
        · exact hrest x hx
      | error e =>
        have hrest : ¬ ∀ x ∈ rest, x.2 = true := by
          intro hall
          obtain ⟨l, hl⟩ := ih.mpr hall
          rw [hr] at hl
          exact absurd hl (by simp)
        simp only [createShortStep3, ha, if_true, hr]
        constructor
        · rintro ⟨l, hl⟩
          exact absurd hl (by simp)
        · intro hall
          exact absurd (fun x hx => hall x (List.mem_cons_of_mem a hx)) hrest
    · simp [createShortStep3, ha]

/-- C1 counterexample: with one asset succeeding and one failing, `createVideo`
Step 1 skips the failure and continues, but `createShort` Step 3 aborts the run
even though the number of successfully normalized assets is not zero — the
claimed partial-failure tolerance does not hold for `createShort`. -/
theorem createShortStep3_not_tolerant_counterexample :
    createShortStep3 [("a.mp4", true), ("b.mp4", false)] = .error "b.mp4"
    ∧ createVideoStep1 [("a.mp4", true), ("b.mp4", false)] = .ok ["a.mp4"] :=
  ⟨rfl, rfl⟩

/-- C1 (amended): the skip-and-continue policy holds for `createVideo` Step 1,
which fails exactly when every asset fails and otherwise continues with the
surviving assets in order; `createShort` Step 3 instead succeeds only when
every asset normalizes, any single failure being fatal. -/
theorem assetNormalization_tolerance (assets : List (String × Bool)) :
    ((∃ e, createVideoStep1 assets = .error e) ↔ ∀ a ∈ assets, a.2 = false)
    ∧ ((∃ a ∈ assets, a.2 = true) →
        createVideoStep1 assets = .ok ((assets.filter (fun a => a.2)).map Prod.fst))
    ∧ ((∃ l, createShortStep3 assets = .ok l) ↔ ∀ a ∈ assets, a.2 = true)
    ∧ ((∃ a ∈ assets, a.2 = false) → ∃ e, createShortStep3 assets = .error e) := by
  have hfil : ((assets.filter (fun a => a.2)).map Prod.fst).isEmpty = true ↔
      ∀ a ∈ assets, a.2 = false := by
    simp [List.isEmpty_iff, List.filter_eq_nil_iff]
  refine ⟨?_, ?_, createShortStep3_ok_iff assets, ?_⟩
  · constructor
    · rintro ⟨e, he⟩
      unfold createVideoStep1 at he
      by_cases hemp : ((assets.filter (fun a => a.2)).map Prod.fst).isEmpty = true
      · exact hfil.mp hemp
      · rw [if_neg (by simpa using hemp)] at he
        exact absurd he (by simp)
    · intro hall
      exact ⟨"No videos were successfully processed",
        by unfold createVideoStep1; rw [if_pos (hfil.mpr hall)]⟩
  · rintro ⟨a, ha, hat⟩
    unfold createVideoStep1
    rw [if_neg ?_]
    intro hemp
    exact absurd hat (by simpa using (hfil.mp hemp) a ha)
  · rintro ⟨a, ha, haf⟩
    cases hr : createShortStep3 assets with
    | error e => exact ⟨e, rfl⟩
    | ok l =>
      have := (createShortStep3_ok_iff assets).mp ⟨l, hr⟩
      exact absurd (this a ha) (by simp [haf])

/-- C1 witness: with every asset failing, `createVideo` Step 1 raises the
stage-level fatal error. -/
theorem assetNormalization_tolerance_witness :
    ∃ e, createVideoStep1 [("x.mp4", false)] = .error e :=
  (assetNormalization_tolerance [("x.mp4", false)]).1.mpr (by decide)

/-! ### C3: timeline loop count and exact trim -/

/-- C3: with positive total clip duration and positive narration duration, the
Step 4 timeline repeats the full clip sequence `ceil(D / total)` times in
order, has `loops * clips.length` entries, covers at least `D` seconds of raw
footage, and the `-t D` trim makes the composed output exactly `D` seconds. -/
theorem composeTimeline_loops (clips : List Clip) (D : ℚ)
    (hT : 0 < (clips.map Prod.snd).sum) (hD : 0 < D) :
    composeTimeline clips D =
      (List.replicate (Int.ceil (D / (clips.map Prod.snd).sum)).toNat clips).flatten
    ∧ (composeTimeline clips D).length =
        (Int.ceil (D / (clips.map Prod.snd).sum)).toNat * clips.length
    ∧ 1 ≤ (Int.ceil (D / (clips.map Prod.snd).sum)).toNat
    ∧ D ≤ ((composeTimeline clips D).map Prod.snd).sum
    ∧ trimmedConcatDuration (composeTimeline clips D) D = D
    ∧ createShortStep4Plan clips D =
        .concatList ((List.replicate (Int.ceil (D / (clips.map Prod.snd).sum)).toNat
          (clips.map Prod.fst)).flatten) (some D) := by
  set T := (clips.map Prod.snd).sum with hTdef
  have hq : 0 < D / T := div_pos hD hT
  have hcpos : 0 < Int.ceil (D / T) := Int.ceil_pos.mpr hq
  have hcast : ((Int.ceil (D / T)).toNat : ℚ) = ((Int.ceil (D / T) : ℤ) : ℚ) := by
    exact_mod_cast Int.toNat_of_nonneg hcpos.le
  have hcover : D ≤ ((Int.ceil (D / T)).toNat : ℚ) * T := by
    rw [hcast]
    calc D = D / T * T := by rw [div_mul_cancel₀ _ (ne_of_gt hT)]
    _ ≤ ((Int.ceil (D / T) : ℤ) : ℚ) * T :=
        mul_le_mul_of_nonneg_right (Int.le_ceil _) hT.le
  have hsum : ((composeTimeline clips D).map Prod.snd).sum =
      ((Int.ceil (D / T)).toNat : ℚ) * T := by
    unfold composeTimeline
    rw [← hTdef, List.map_flatten, List.map_replicate]
    rw [show List.map Prod.snd clips = clips.map Prod.snd from rfl]
    induction (Int.ceil (D / T)).toNat with
    | zero => simp
    | succ n ihn =>
      rw [List.replicate_succ, List.flatten_cons, List.sum_append, ihn]
      push_cast
      ring
  refine ⟨rfl, ?_, ?_, ?_, ?_, rfl⟩
  · unfold composeTimeline
    rw [← hTdef, List.length_flatten, List.map_replicate, List.sum_replicate,
      smul_eq_mul]
  · omega
  · rw [hsum]
    exact hcover
  · unfold trimmedConcatDuration
    rw [hsum]
    exact min_eq_right (by rw [hsum] at *; exact hcover)

/-- C3 witness: the spec scenario — narration 20 s, two 8-second clips —
yields 2 loops, 4 clip-plays, and an output of exactly 20 s. -/
theorem composeTimeline_loops_witness :
    (composeTimeline [("a", (8 : ℚ)), ("b", 8)] 20).length = 4
    ∧ trimmedConcatDuration (composeTimeline [("a", (8 : ℚ)), ("b", 8)] 20) 20 = 20 := by
  have h := composeTimeline_loops [("a", (8 : ℚ)), ("b", 8)] 20
    (by norm_num) (by norm_num)
  have hsum : (List.map Prod.snd [("a", (8 : ℚ)), ("b", 8)]).sum = 16 := by norm_num
  have hc : Int.ceil ((20 : ℚ) / 16) = 2 := by norm_num [Int.ceil_eq_iff]
  refine ⟨?_, h.2.2.2.2.1⟩
  rw [h.2.1, hsum, hc]
  rfl

/-! ### C9: single-clip shortcut -/

/-- C9 counterexample: `createShort` Step 4 with a single 8-second clip and a
20-second narration still writes a concat play-list (three repeated entries)
rather than copying the clip — the single-clip copy shortcut is absent there. -/
theorem createShortStep4_no_copy_counterexample :
    createShortStep4Plan [("clip.mp4", 8)] 20 =
      .concatList ["clip.mp4", "clip.mp4", "clip.mp4"] (some 20)
    ∧ ∀ s, createShortStep4Plan [("clip.mp4", 8)] 20 ≠ .copied s := by
  have hc : Int.ceil ((20 : ℚ) / 8) = 3 := by norm_num [Int.ceil_eq_iff]
  have h1 : createShortStep4Plan [("clip.mp4", 8)] 20 =
      .concatList ["clip.mp4", "clip.mp4", "clip.mp4"] (some 20) := by
    unfold createShortStep4Plan
    simp only [List.map_cons, List.map_nil, List.sum_cons, List.sum_nil, add_zero]
    rw [hc]
    rfl
  refine ⟨h1, fun s h => ?_⟩
  rw [h1] at h
  exact absurd h (by simp)

/-- C9 (amended): the single-clip copy shortcut lives in editor.ts
`concatenateVideos` (the `createVideo` path): one video is copied directly;
`createShort` Step 4 never produces a copy plan, even for a single clip. -/
theorem singleClip_copy_shortcut (v : String) (t : Option ℚ) (clips : List Clip)
    (D : ℚ) (_hclips : clips.length = 1) :
    concatenateVideos [v] t = .ok (.copied v)
    ∧ ∀ s, createShortStep4Plan clips D ≠ .copied s := by
  refine ⟨rfl, fun s h => ?_⟩
  unfold createShortStep4Plan at h
  exact absurd h (by simp)

/-- C9 witness: a single video is copied by `concatenateVideos`. -/
theorem singleClip_copy_shortcut_witness :
    concatenateVideos ["only.mp4"] (some 12) = .ok (.copied "only.mp4") :=
  (singleClip_copy_shortcut "only.mp4" (some 12) [("only.mp4", 5)] 12 rfl).1

/-! ### C2: caption cue windows -/

lemma tilesB_append {a m b : ℚ} {xs ys : List (ℚ × ℚ)}
    (h1 : tilesB a xs m = true) (h2 : tilesB m ys b = true) :
    tilesB a (xs ++ ys) b = true := by
  induction xs generalizing a with
  | nil =>
    have ham : a = m := by simpa [tilesB, beq_iff_eq] using h1
    simpa [ham] using h2
  | cons w xs ih =>
    rw [List.cons_append]
    simp only [tilesB, Bool.and_eq_true] at h1 ⊢
    exact ⟨h1.1, ih h1.2⟩

lemma orderedB_mono {a a' b : ℚ} {ws : List (ℚ × ℚ)} (h : orderedB a ws b = true)
    (ha : a' ≤ a) : orderedB a' ws b = true := by
  cases ws with
  | nil =>
    simp only [orderedB, decide_eq_true_eq] at h ⊢
    linarith
  | cons w l =>
    simp only [orderedB, Bool.and_eq_true, decide_eq_true_eq] at h ⊢
    exact ⟨⟨le_trans ha h.1.1, h.1.2⟩, h.2⟩

lemma orderedB_append {a m b : ℚ} {xs ys : List (ℚ × ℚ)}
    (h1 : orderedB a xs m = true) (h2 : orderedB m ys b = true) :
    orderedB a (xs ++ ys) b = true := by
  induction xs generalizing a with
  | nil =>
    have ham : a ≤ m := by simpa [orderedB, decide_eq_true_eq] using h1
    exact orderedB_mono h2 ham
  | cons w xs ih =>
    rw [List.cons_append]
    simp only [orderedB, Bool.and_eq_true] at h1 ⊢
    exact ⟨h1.1, ih h1.2⟩

lemma sentWindows_tiles (slot : ℚ) (hs : 0 ≤ slot) (S : ℕ) :
    tilesB (slot * 1) ((List.range S).map
      (fun (i : ℕ) => (slot * ((i : ℚ) + 1), slot * ((i : ℚ) + 2))))
      (slot * ((S : ℚ) + 1)) = true := by
  induction S with
  | zero => simp [tilesB]
  | succ n ih =>
    rw [List.range_succ, List.map_append]
    refine tilesB_append ih ?_
    simp only [List.map_cons, List.map_nil, tilesB, Bool.and_eq_true, beq_iff_eq,
      decide_eq_true_eq]
    refine ⟨⟨?_, ?_⟩, ?_⟩
    · first
      | rfl
      | trivial
    · have h12 : ((n : ℚ) + 1) ≤ ((n : ℚ) + 2) := by linarith
      exact mul_le_mul_of_nonneg_left h12 hs
    · push_cast
      ring

lemma sentWindows_ordered (slot : ℚ) (hs : 0 ≤ slot) (S : ℕ) :
    orderedB (slot * 1) ((List.range S).map
      (fun (i : ℕ) => (slot * ((i : ℚ) + 1), slot * ((i : ℚ) + 2))))
      (slot * ((S : ℚ) + 1)) = true := by
  induction S with
  | zero => simp [orderedB]
  | succ n ih =>
    rw [List.range_succ, List.map_append]
    refine orderedB_append ih ?_
    simp only [List.map_cons, List.map_nil, orderedB, Bool.and_eq_true,
      decide_eq_true_eq]
    refine ⟨⟨le_refl _, ?_⟩, ?_⟩
    · have h12 : ((n : ℚ) + 1) ≤ ((n : ℚ) + 2) := by linarith
      exact mul_le_mul_of_nonneg_left h12 hs
    · have : slot * ((n : ℚ) + 2) = slot * (((n : ℕ) + 1 : ℕ) + 1 : ℚ) := by
        push_cast
        ring
      exact le_of_eq this

/-- C2 (amended): for `D > 0` the overlay scheduler builds exactly `S + 2`
windows — intro `(0, min(2.5, slot))`, sentence `i` (1-based) occupying
`(slot*i, slot*(i+1))`, outro `(D - min(2.5, slot), D)` with
`slot = D/(S+2)` — which are always ordered and non-overlapping within
`[0, D]`; they partition `[0, D]` into contiguous intervals summing to `D`
exactly when `slot ≤ 2.5` (otherwise the capped intro/outro leave gaps). -/
theorem captionWindows_amended (D : ℚ) (S : ℕ) (hD : 0 < D) :
    (captionWindows D S).length = S + 2
    ∧ (captionWindows D S).head? = some (0, min (5/2) (D / ((S : ℚ) + 2)))
    ∧ (captionWindows D S).getLast? = some (D - min (5/2) (D / ((S : ℚ) + 2)), D)
    ∧ (∀ i : ℕ, i < S → (captionWindows D S)[i + 1]? =
        some ((D / ((S : ℚ) + 2)) * ((i : ℚ) + 1), (D / ((S : ℚ) + 2)) * ((i : ℚ) + 2)))
    ∧ orderedB 0 (captionWindows D S) D = true
    ∧ (D / ((S : ℚ) + 2) ≤ 5/2 → tilesB 0 (captionWindows D S) D = true) := by
  have hS2 : (0 : ℚ) < (S : ℚ) + 2 := by positivity
  have hs : 0 ≤ D / ((S : ℚ) + 2) := le_of_lt (div_pos hD hS2)
  have hDslot : D / ((S : ℚ) + 2) * ((S : ℚ) + 2) = D :=
    div_mul_cancel₀ D (ne_of_gt hS2)
  have hmin0 : 0 ≤ min (5/2 : ℚ) (D / ((S : ℚ) + 2)) := le_min (by norm_num) hs
  have hminslot : min (5/2 : ℚ) (D / ((S : ℚ) + 2)) ≤ D / ((S : ℚ) + 2) :=
    min_le_right _ _
  have hne : ((S : ℚ) + 2) ≠ 0 := ne_of_gt hS2
  have hout : D / ((S : ℚ) + 2) * ((S : ℚ) + 1) + D / ((S : ℚ) + 2) = D := by
    field_simp
    ring
  refine ⟨?_, rfl, ?_, ?_, ?_, ?_⟩
  · simp [captionWindows]
  · exact List.getLast?_concat _
  · intro i hi
    show ((((0 : ℚ), min (5/2) (D / ((S : ℚ) + 2))) ::
      (List.range S).map (fun (i : ℕ) => (D / ((S : ℚ) + 2) * ((i : ℚ) + 1),
        D / ((S : ℚ) + 2) * ((i : ℚ) + 2)))) ++
      [(D - min (5/2) (D / ((S : ℚ) + 2)), D)])[i + 1]? = _
    rw [List.cons_append, List.getElem?_cons_succ,
      List.getElem?_append_left (by simpa using hi), List.getElem?_map,
      List.getElem?_range hi]
    rfl
  · show orderedB 0 ((((0 : ℚ), min (5/2) (D / ((S : ℚ) + 2))) ::
      (List.range S).map (fun (i : ℕ) => (D / ((S : ℚ) + 2) * ((i : ℚ) + 1),
        D / ((S : ℚ) + 2) * ((i : ℚ) + 2)))) ++
      [(D - min (5/2) (D / ((S : ℚ) + 2)), D)]) D = true
    rw [List.cons_append]
    simp only [orderedB, Bool.and_eq_true, decide_eq_true_eq]
    refine ⟨⟨le_refl 0, hmin0⟩, ?_⟩
    refine orderedB_append (m := D / ((S : ℚ) + 2) * ((S : ℚ) + 1)) ?_ ?_
    · refine orderedB_mono (sentWindows_ordered (D / ((S : ℚ) + 2)) hs S) ?_
      rw [mul_one]
      exact hminslot
    · simp only [orderedB, Bool.and_eq_true, decide_eq_true_eq]
      refine ⟨⟨by linarith, by linarith⟩, le_refl D⟩
  · intro hslot
    have hmineq : min (5/2 : ℚ) (D / ((S : ℚ) + 2)) = D / ((S : ℚ) + 2) :=
      min_eq_right hslot
    show tilesB 0 ((((0 : ℚ), min (5/2) (D / ((S : ℚ) + 2))) ::
      (List.range S).map (fun (i : ℕ) => (D / ((S : ℚ) + 2) * ((i : ℚ) + 1),
        D / ((S : ℚ) + 2) * ((i : ℚ) + 2)))) ++
      [(D - min (5/2) (D / ((S : ℚ) + 2)), D)]) D = true
    rw [List.cons_append, hmineq]
    simp only [tilesB, Bool.and_eq_true, beq_iff_eq, decide_eq_true_eq]
    refine ⟨⟨?_, hs⟩, ?_⟩
    · first
      | rfl
      | trivial
    refine tilesB_append (m := D / ((S : ℚ) + 2) * ((S : ℚ) + 1)) ?_ ?_
    · have := sentWindows_tiles (D / ((S : ℚ) + 2)) hs S
      rwa [mul_one] at this
    · simp only [tilesB, Bool.and_eq_true, beq_iff_eq, decide_eq_true_eq]
      refine ⟨⟨by linarith, by linarith⟩, ?_⟩
      first
        | rfl
        | trivial

/-- C2 witness: with duration 8 and two sentences the slot is 2 ≤ 2.5, so the
four windows tile `[0, 8]` exactly. -/
theorem captionWindows_amended_witness :
    orderedB 0 (captionWindows 8 2) 8 = true ∧ tilesB 0 (captionWindows 8 2) 8 = true := by
  have h := captionWindows_amended 8 2 (by norm_num)
  exact ⟨h.2.2.2.2.1, h.2.2.2.2.2 (by norm_num)⟩

/-- C2 counterexample: the script "Hi." yields one sentence; with narration
duration 30 the slot is 10 > 2.5, so the three windows are
`[(0, 2.5), (10, 20), (27.5, 30)]`: they do not partition `[0, 30]` (gaps
flank the capped intro and outro) and their widths sum to 15, not 30. -/
theorem captionWindows_not_partition_counterexample :
    splitScriptIntoSentences ['H', 'i', '.'] = [['H', 'i']]
    ∧ captionWindows 30 1 = [(0, 5/2), (10, 20), (55/2, 30)]
    ∧ tilesB 0 (captionWindows 30 1) 30 = false
    ∧ ((captionWindows 30 1).map (fun w => w.2 - w.1)).sum = 15 := by
  have hw : captionWindows 30 1 = [(0, 5/2), (10, 20), (55/2, 30)] := by
    simp only [captionWindows, List.range_succ, List.range_zero, List.nil_append,
      List.map_cons, List.map_nil, List.cons_append, List.singleton_append]
    norm_num
  have h1 : ((5/2 : ℚ) == 10) = false := by
    rw [beq_eq_false_iff_ne]
    norm_num
  refine ⟨by decide, hw, ?_, ?_⟩
  · rw [hw]
    simp [tilesB, h1]
  · rw [hw]
    norm_num

/-! ### C4/C10: TTS chunking lemmas -/

lemma trimChars_length (cs : List Char) : (trimChars cs).length ≤ cs.length := by
  simp only [trimChars, List.length_reverse]
  refine le_trans (List.dropWhile_sublist _).length_le ?_
  simp only [List.length_reverse]
  exact (List.dropWhile_sublist _).length_le

lemma chunkLoop_size (S0 : List (List Char)) :
    ∀ ss cur, (∀ s ∈ ss, s ∈ S0) → (cur.length ≤ 200 ∨ ∃ s ∈ S0, cur = s) →
      ∀ c ∈ chunkLoop ss cur, c.length ≤ 200 ∨ ∃ s ∈ S0, c = trimChars s := by
  intro ss
  induction ss with
  | nil =>
    intro cur _ hcur c hc
    by_cases hemp : cur.isEmpty = true
    · simp [chunkLoop, hemp] at hc
    · simp only [chunkLoop] at hc
      rw [if_neg hemp, List.mem_singleton] at hc
      subst hc
      rcases hcur with h | ⟨u, hu, hcu⟩
      · exact Or.inl (le_trans (trimChars_length cur) h)
      · exact Or.inr ⟨u, hu, by rw [hcu]⟩
  | cons s ss ih =>
    intro cur hss hcur c hc
    simp only [chunkLoop] at hc
    by_cases hfit : (cur ++ s).length ≤ 200
    · rw [if_pos hfit] at hc
      exact ih (cur ++ s) (fun x hx => hss x (List.mem_cons_of_mem _ hx))
        (Or.inl hfit) c hc
    · rw [if_neg hfit, List.mem_append] at hc
      rcases hc with hc | hc
      · by_cases hemp : cur.isEmpty = true
        · rw [if_pos hemp] at hc
          simp at hc
        · rw [if_neg hemp, List.mem_singleton] at hc
          subst hc
          rcases hcur with h | ⟨u, hu, hcu⟩
          · exact Or.inl (le_trans (trimChars_length cur) h)
          · exact Or.inr ⟨u, hu, by rw [hcu]⟩
      · exact ih s (fun x hx => hss x (List.mem_cons_of_mem _ hx))
          (Or.inr ⟨s, hss s (List.mem_cons_self _ _), rfl⟩) c hc

lemma chunkLoop_groups :
    ∀ ss curG : List (List Char), (∀ s ∈ ss, s ≠ []) → (∀ s ∈ curG, s ≠ []) →
      ∃ gs : List (List (List Char)), (∀ g ∈ gs, g ≠ []) ∧
        gs.flatten = curG ++ ss ∧
        chunkLoop ss curG.flatten = gs.map (fun g => trimChars g.flatten) := by
  intro ss
  induction ss with
  | nil =>
    intro curG _ hcur
    by_cases hc : curG = []
    · subst hc
      exact ⟨[], by simp, by simp, by simp [chunkLoop]⟩
    · have hne : curG.flatten ≠ [] := by
        rw [Ne, List.flatten_eq_nil_iff]
        intro hall
        obtain ⟨g, hg⟩ := List.exists_mem_of_ne_nil curG hc
        exact hcur g hg (hall g hg)
      have hemp : ¬ curG.flatten.isEmpty = true := by
        simpa [List.isEmpty_iff] using hne
      refine ⟨[curG], by simp [hc], by simp, ?_⟩
      simp only [chunkLoop]
      rw [if_neg hemp]
      simp
  | cons s ss ih =>
    intro curG hss hcur
    have hs0 : s ≠ [] := hss s (List.mem_cons_self _ _)
    have hss' : ∀ x ∈ ss, x ≠ [] := fun x hx => hss x (List.mem_cons_of_mem _ hx)
    by_cases hfit : (curG.flatten ++ s).length ≤ 200
    · obtain ⟨gs, h1, h2, h3⟩ := ih (curG ++ [s]) hss' (by
        intro x hx
        rcases List.mem_append.mp hx with hx | hx
        · exact hcur x hx
        · rw [List.mem_singleton] at hx
          subst hx
          exact hs0)
      refine ⟨gs, h1, ?_, ?_⟩
      · rw [h2, List.append_assoc]
        rfl
      · have hflat : (curG ++ [s]).flatten = curG.flatten ++ s := by simp
        simp only [chunkLoop]
        rw [if_pos hfit]
        rw [hflat] at h3
        exact h3
    · by_cases hc : curG = []
      · subst hc
        obtain ⟨gs, h1, h2, h3⟩ := ih [s] hss' (by
          intro x hx
          rw [List.mem_singleton] at hx
          subst hx
          exact hs0)
        refine ⟨gs, h1, by simpa using h2, ?_⟩
        simp only [chunkLoop, List.flatten_nil] at hfit ⊢
        rw [if_neg hfit]
        simp only [List.isEmpty_nil, if_true, List.nil_append]
        simpa using h3
      · have hne : curG.flatten ≠ [] := by
          rw [Ne, List.flatten_eq_nil_iff]
          intro hall
          obtain ⟨g, hg⟩ := List.exists_mem_of_ne_nil curG hc
          exact hcur g hg (hall g hg)
        have hemp : ¬ curG.flatten.isEmpty = true := by
          simpa [List.isEmpty_iff] using hne
        obtain ⟨gs, h1, h2, h3⟩ := ih [s] hss' (by
          intro x hx
          rw [List.mem_singleton] at hx
          subst hx
          exact hs0)
        refine ⟨curG :: gs, ?_, ?_, ?_⟩
        · intro g hg
          rcases List.mem_cons.mp hg with rfl | hg
          · exact hc
          · exact h1 g hg
        · rw [List.flatten_cons, h2]
          rfl
        · simp only [chunkLoop]
          rw [if_neg hfit, if_neg hemp, List.map_cons]
          rw [List.singleton_append]
          rw [show chunkLoop ss s = chunkLoop ss [s].flatten from by simp]
          rw [h3]

lemma scanSentences_mem_ne_nil :
    ∀ cs acc inTerms, (inTerms = true → acc ≠ []) →
      ∀ s ∈ scanSentences cs acc inTerms, s ≠ [] := by
  intro cs
  induction cs with
  | nil =>
    intro acc inTerms hinv s hs
    cases inTerms with
    | false => simp [scanSentences] at hs
    | true =>
      simp only [scanSentences, if_pos] at hs
      rw [List.mem_singleton] at hs
      subst hs
      simpa using hinv rfl
  | cons c cs ih =>
    intro acc inTerms hinv s hs
    simp only [scanSentences] at hs
    by_cases ht : isTerm c = true
    · rw [if_pos ht] at hs
      by_cases hemp : acc.isEmpty = true
      · rw [if_pos hemp] at hs
        exact ih [] false (by simp) s hs
      · rw [if_neg hemp] at hs
        exact ih (c :: acc) true (fun _ => by simp) s hs
    · rw [if_neg ht] at hs
      cases inTerms with
      | true =>
        rw [if_pos rfl] at hs
        rcases List.mem_cons.mp hs with rfl | hs
        · simpa using hinv rfl
        · exact ih [c] false (by simp) s hs
      | false =>
        rw [if_neg (by simp)] at hs
        exact ih (c :: acc) false (by simp) s hs

lemma jsSentences_of_ne (text : List Char) (h : sentencesOf text ≠ []) :
    jsSentences text = sentencesOf text := by
  unfold jsSentences
  cases hcase : sentencesOf text with
  | nil => exact absurd hcase h
  | cons x xs => rfl

lemma jsSentences_mem_ne_nil (text : List Char) (h : text ≠ []) :
    ∀ s ∈ jsSentences text, s ≠ [] := by
  intro s hs
  cases hcase : sentencesOf text with
  | nil =>
    unfold jsSentences at hs
    rw [hcase] at hs
    rw [List.mem_singleton] at hs
    subst hs
    exact h
  | cons x xs =>
    rw [jsSentences_of_ne text (by rw [hcase]; simp)] at hs
    exact scanSentences_mem_ne_nil text [] false (by simp) s hs

/-- C4: the TTS chunker yields one chunk for text within the 200-character
limit; every chunk is at most 200 characters unless it is a single (trimmed)
oversized sentence; for longer text the chunk list is exactly a grouping of
the matched sentences, in order, each chunk the trimmed concatenation of a
non-empty run of consecutive sentences; a lone chunk becomes the output
directly, several chunks are stitched in original order. -/
theorem generateTTSAudio_chunking (text : List Char) :
    (text.length ≤ 200 → ttsChunks text = [text])
    ∧ (∀ c ∈ ttsChunks text, c.length ≤ 200 ∨ ∃ s ∈ jsSentences text, c = trimChars s)
    ∧ (200 < text.length →
        ∃ gs : List (List (List Char)), (∀ g ∈ gs, g ≠ []) ∧
          gs.flatten = jsSentences text ∧
          ttsChunks text = gs.map (fun g => trimChars g.flatten))
    ∧ (∀ c, ttsChunks text = [c] → assembleNarration (ttsChunks text) = .direct c)
    ∧ (∀ c1 c2 cs, ttsChunks text = c1 :: c2 :: cs →
        assembleNarration (ttsChunks text) = .stitched (ttsChunks text)) := by
  refine ⟨?_, ?_, ?_, ?_, ?_⟩
  · intro h
    unfold ttsChunks
    rw [if_pos h]
  · intro c hc
    unfold ttsChunks at hc
    by_cases h : text.length ≤ 200
    · rw [if_pos h, List.mem_singleton] at hc
      subst hc
      exact Or.inl h
    · rw [if_neg h] at hc
      exact chunkLoop_size (jsSentences text) (jsSentences text) []
        (fun s hs => hs) (Or.inl (by simp)) c hc
  · intro h
    have htne : text ≠ [] := by
      intro h0
      subst h0
      simp at h
    obtain ⟨gs, h1, h2, h3⟩ :=
      chunkLoop_groups (jsSentences text) [] (jsSentences_mem_ne_nil text htne)
        (by simp)
    refine ⟨gs, h1, by simpa using h2, ?_⟩
    unfold ttsChunks
    rw [if_neg (by omega)]
    simpa using h3
  · intro c hc
    rw [hc]
    rfl
  · intro c1 c2 cs hc
    rw [hc]
    rfl

/-- C4 witness: a short text is a single chunk. -/
theorem generateTTSAudio_chunking_witness :
    ttsChunks ['H', 'i', '.'] = [['H', 'i', '.']] :=
  (generateTTSAudio_chunking ['H', 'i', '.']).1 (by decide)

/-! ### C10: trailing unterminated text -/

lemma scanSentences_noTerm (tail : List Char) (h : ∀ c ∈ tail, isTerm c = false) :
    ∀ acc, scanSentences tail acc false = [] := by
  induction tail with
  | nil => intro acc; rfl
  | cons c cs ih =>
    intro acc
    have hc : isTerm c = false := h c (by simp)
    simp only [scanSentences]
    rw [if_neg (by simp [hc]), if_neg (by simp)]
    exact ih (fun x hx => h x (by simp [hx])) (c :: acc)

lemma scanSentences_noTerm_inTerms (tail : List Char)
    (h : ∀ c ∈ tail, isTerm c = false) (acc : List Char) :
    scanSentences tail acc true = [acc.reverse] := by
  cases tail with
  | nil => rfl
  | cons c cs =>
    have hc : isTerm c = false := h c (by simp)
    simp only [scanSentences]
    rw [if_neg (by simp [hc])]
    rw [if_pos (by trivial)]
    rw [scanSentences_noTerm cs (fun x hx => h x (by simp [hx])) [c]]

lemma scanSentences_append (tail : List Char)
    (htail : ∀ c ∈ tail, isTerm c = false) :
    ∀ b : List Char, ∀ t : Char, ∀ acc : List Char, ∀ inTerms : Bool,
      isTerm t = true →
      scanSentences ((b ++ [t]) ++ tail) acc inTerms
        = scanSentences (b ++ [t]) acc inTerms := by
  intro b
  induction b with
  | nil =>
    intro t acc inTerms ht
    simp only [List.nil_append, List.cons_append]
    simp only [scanSentences]
    rw [if_pos ht, if_pos ht]
    by_cases hemp : acc.isEmpty = true
    · rw [if_pos hemp, if_pos hemp, scanSentences_noTerm tail htail []]
      rfl
    · rw [if_neg hemp, if_neg hemp,
        scanSentences_noTerm_inTerms tail htail (t :: acc)]
      rfl
  | cons c b ihb =>
    intro t acc inTerms ht
    simp only [List.cons_append]
    simp only [scanSentences]
    by_cases hc : isTerm c = true
    · rw [if_pos hc, if_pos hc]
      by_cases hemp : acc.isEmpty = true
      · rw [if_pos hemp, if_pos hemp]
        exact ihb t [] false ht
      · rw [if_neg hemp, if_neg hemp]
        exact ihb t (c :: acc) true ht
    · rw [if_neg hc, if_neg hc]
      cases inTerms with
      | true =>
        rw [if_pos rfl, if_pos rfl, ihb t [c] false ht]
      | false =>
        rw [if_neg (by simp), if_neg (by simp)]
        exact ihb t (c :: acc) false ht

lemma sentencesOf_append_noTerm (b : List Char) (t : Char) (tail : List Char)
    (ht : isTerm t = true) (htail : ∀ c ∈ tail, isTerm c = false) :
    sentencesOf ((b ++ [t]) ++ tail) = sentencesOf (b ++ [t]) :=
  scanSentences_append tail htail b t [] false ht

set_option maxRecDepth 100000 in
/-- C10 counterexample: a text of 201 terminators followed by "abc" is longer
than 200 characters and contains terminators, yet no sentence matches, so the
whole-text fallback makes the entire text — trailing "abc" included — the one
TTS chunk; the trailing characters are not dropped. -/
theorem ttsChunks_trailing_counterexample :
    200 < (List.replicate 201 '.' ++ ['a', 'b', 'c']).length
    ∧ '.' ∈ List.replicate 201 '.' ++ ['a', 'b', 'c']
    ∧ isTerm '.' = true
    ∧ (∀ c ∈ ['a', 'b', 'c'], isTerm c = false)
    ∧ ttsChunks (List.replicate 201 '.' ++ ['a', 'b', 'c'])
        = [List.replicate 201 '.' ++ ['a', 'b', 'c']]
    ∧ (∃ c ∈ ttsChunks (List.replicate 201 '.' ++ ['a', 'b', 'c']), 'a' ∈ c) := by
  refine ⟨by decide, by decide, by decide, by decide, by decide, by decide⟩

/-- C10 (amended): for text of more than 200 characters in which at least one
sentence matches (some non-terminator run followed by a terminator), the
characters after the last terminator play no role: the sentence list of the
whole text equals that of its terminated prefix, and the chunks are computed
from those sentences alone — the trailing unterminated text is absent. -/
theorem ttsChunks_drop_trailing (b : List Char) (t : Char) (tail : List Char)
    (ht : isTerm t = true) (htail : ∀ c ∈ tail, isTerm c = false)
    (hlen : 200 < ((b ++ [t]) ++ tail).length)
    (hmatch : sentencesOf (b ++ [t]) ≠ []) :
    sentencesOf ((b ++ [t]) ++ tail) = sentencesOf (b ++ [t])
    ∧ ttsChunks ((b ++ [t]) ++ tail) = chunkLoop (sentencesOf (b ++ [t])) [] := by
  have hS := sentencesOf_append_noTerm b t tail ht htail
  refine ⟨hS, ?_⟩
  unfold ttsChunks
  rw [if_neg (by omega)]
  rw [jsSentences_of_ne _ (by rw [hS]; exact hmatch), hS]

set_option maxRecDepth 100000 in
/-- C10 witness: a long terminated text followed by a stray character produces
the same chunks as the terminated prefix alone. -/
theorem ttsChunks_drop_trailing_witness :
    ttsChunks ((List.replicate 201 'b' ++ ['.']) ++ ['x'])
      = chunkLoop (sentencesOf (List.replicate 201 'b' ++ ['.'])) [] :=
  (ttsChunks_drop_trailing (List.replicate 201 'b') '.' ['x'] (by decide)
    (by decide) (by decide) (by decide)).2

end FVA
